import Mathlib

/-
Verification of the rust-automata engine: a shallow embedding of
src/nfa.rs and src/dfa.rs (NFA/DFA simulation, lazy traversal iterators,
and NFA-to-DFA subset construction), with theorems settling the frozen
claims about the specification.

Modelling conventions:
* Rust HashMap<(S, Transition<I>), V> becomes an association list
  `List ((S × Transition I) × V)` looked up with `tlookup`; the list order
  fixes the (otherwise arbitrary) hash-map iteration order.
* Rust HashSet<S> values used as working subsets become `Finset S`; the
  BTreeSet canonical key of the converter is the same `Finset` (Finset
  equality is exactly order-independent set identity).
* Possibly diverging loops (the BFS of NFA::run, the converter worklist)
  take an explicit fuel argument and return `none` when fuel runs out.
* A Rust panic (the out-of-bounds `s[pos]` indexing in NFA::run) is the
  `RunOutcome.crash` value.
-/

namespace RustAutomata

/-- Transition labels, from nfa.rs: `Anything` (wildcard), `Epsilon`
(free move), `Input c` (exact symbol). -/
inductive Transition (I : Type) where
  | Anything
  | Epsilon
  | Input (c : I)
  deriving DecidableEq, Repr

/-- The NFA record from nfa.rs: start state, accept states, transition
table mapping (state, label) to a set of destination states (destination
sets are kept as lists to fix the HashSet iteration order). -/
structure NFA (S I : Type) where
  start : S
  accept_states : Finset S
  transitions : List ((S × Transition I) × List S)
  deriving DecidableEq

/-- The DFA record from dfa.rs: start state, accept states, transition
table mapping (state, label) to a single destination state. -/
structure DFA (S I : Type) where
  start : S
  accept_states : Finset S
  transitions : List ((S × Transition I) × S)
  deriving DecidableEq

/-- Association-list lookup, modelling HashMap::get. -/
def tlookup [DecidableEq κ] (m : List (κ × α)) (k : κ) : Option α :=
  match m with
  | [] => none
  | (k2, v) :: rest => if k2 = k then some v else tlookup rest k

variable {S I : Type} [DecidableEq S] [DecidableEq I]

/-- HashMap::get on an NFA transition table. -/
def NFA.lookupT (nfa : NFA S I) (k : S × Transition I) : Option (List S) :=
  tlookup nfa.transitions k

/-- Outcome of one call to NFA::run: `crash` models the Rust panic caused
by the out-of-bounds `s[pos]` index, `accepted path` models `Some(path)`,
`rejected` models `None`. -/
inductive RunOutcome (I : Type) where
  | crash
  | accepted (path : List I)
  | rejected
  deriving DecidableEq, Repr

/-- The BFS worklist loop of NFA::run (nfa.rs lines 199-231), transcribed
step for step.  Each iteration pops (state, pos), enqueues the epsilon
destinations at pos and the Anything destinations at pos+1, then executes
`path.push(s[pos])` - which in the source indexes the input vector and
panics when `pos` is not below `s.len()` (modelled by `crash`) - and then
either performs the accept test (when pos = length, unreachable because
the push already panicked there) or enqueues the exact-symbol
destinations at pos+1.  `none` means the fuel ran out. -/
def NFA.runAux (nfa : NFA S I) (s : List I) :
    Nat → List (S × Nat) → List I → Option (RunOutcome I)
  | 0, _, _ => none
  | _ + 1, [], _ => some .rejected
  | fuel + 1, (state, pos) :: rest, path =>
    let q1 := rest ++ ((nfa.lookupT (state, .Epsilon)).getD []).map (fun i => (i, pos))
    let q2 := q1 ++ ((nfa.lookupT (state, .Anything)).getD []).map (fun i => (i, pos + 1))
    if h : pos < s.length then
      let c := s.get ⟨pos, h⟩
      let path2 := path ++ [c]
      if pos = s.length then
        if state ∈ nfa.accept_states then some (.accepted path2)
        else nfa.runAux s fuel q2 path2
      else
        nfa.runAux s fuel
          (q2 ++ ((nfa.lookupT (state, .Input c)).getD []).map (fun i => (i, pos + 1))) path2
    else
      some .crash

/-- NFA::run with explicit fuel: the BFS starts from (start, 0) with an
empty path. -/
def NFA.run (nfa : NFA S I) (s : List I) (fuel : Nat) : Option (RunOutcome I) :=
  nfa.runAux s fuel [(nfa.start, 0)] []

/-- Cursor state of the NFA lazy-traversal iterator (NFAIter):
the FIFO worklist of (state, position) pairs and the input. -/
structure NFAIterSt (S I : Type) where
  queue : List (S × Nat)
  input : List I
  deriving DecidableEq

/-- NFA::iter seeds the worklist with (start, 0). -/
def NFA.iterInit (nfa : NFA S I) (input : List I) : NFAIterSt S I :=
  ⟨[(nfa.start, 0)], input⟩

/-- NFAIter::next (nfa.rs lines 42-70), transcribed step for step: pop one
(state, pos) pair; if pos is below the input length, enqueue the exact
Input-symbol destinations at pos+1, or ELSE (only when no exact entry
exists) the Anything destinations at pos+1; then enqueue the epsilon
destinations at pos; finally yield the popped state. -/
def NFA.iterNext (nfa : NFA S I) (st : NFAIterSt S I) : Option (S × NFAIterSt S I) :=
  match st.queue with
  | [] => none
  | (state, pos) :: rest =>
    let q1 :=
      if h : pos < st.input.length then
        match nfa.lookupT (state, .Input (st.input.get ⟨pos, h⟩)) with
        | some set => rest ++ set.map (fun i => (i, pos + 1))
        | none =>
          match nfa.lookupT (state, .Anything) with
          | some set => rest ++ set.map (fun i => (i, pos + 1))
          | none => rest
      else rest
    let q2 :=
      match nfa.lookupT (state, .Epsilon) with
      | some set => q1 ++ set.map (fun i => (i, pos))
      | none => q1
    some (state, ⟨q2, st.input⟩)

/-- The n-th value produced by repeatedly calling a pull-based iterator:
`pullN next st n` is the result of the (n+1)-st call of `next`.  Once a
call returns `none` the cursor state is unchanged in the source, so all
later calls return `none` as well. -/
def pullN (next : σ → Option (α × σ)) : σ → Nat → Option α
  | st, 0 => (next st).map Prod.fst
  | st, n + 1 =>
    match next st with
    | none => none
    | some (_, st2) => pullN next st2 n

/-- Cursor state of the DFA lazy-traversal iterator (DFAIter). -/
structure DFAIterSt (S I : Type) where
  input : List I
  pos : Nat
  cur : S
  deriving DecidableEq

/-- DFA::iter starts at position 0 in the start state. -/
def DFA.iterInit (dfa : DFA S I) (input : List I) : DFAIterSt S I :=
  ⟨input, 0, dfa.start⟩

/-- DFAIter::next (dfa.rs lines 46-85), transcribed step for step: finished
past length+1; at the terminal position yield the current state once;
otherwise take the exact transition, else the Anything transition (each
advancing position and yielding the previous state), and when neither
exists jump the cursor to length+1 and yield the current state. -/
def DFA.iterNext (dfa : DFA S I) (st : DFAIterSt S I) : Option (S × DFAIterSt S I) :=
  if h1 : st.input.length < st.pos then
    none
  else if h2 : st.pos = st.input.length then
    some (st.cur, ⟨st.input, st.pos + 1, st.cur⟩)
  else
    let c := st.input.get ⟨st.pos, by omega⟩
    match tlookup dfa.transitions (st.cur, .Input c) with
    | some s2 => some (st.cur, ⟨st.input, st.pos + 1, s2⟩)
    | none =>
      match tlookup dfa.transitions (st.cur, .Anything) with
      | some s2 => some (st.cur, ⟨st.input, st.pos + 1, s2⟩)
      | none => some (st.cur, ⟨st.input, st.input.length + 1, st.cur⟩)

/-- The loop of DFA::run (dfa.rs lines 102-128): consume the input symbol
by symbol, preferring the exact transition and falling back to Anything,
pushing each consumed symbol onto the path; return None at the first
symbol with no applicable transition; after the loop return the path iff
the final state is accepting. -/
def DFA.runAux (dfa : DFA S I) (cur : S) (path : List I) : List I → Option (List I)
  | [] => if cur ∈ dfa.accept_states then some path else none
  | c :: rest =>
    match tlookup dfa.transitions (cur, .Input c) with
    | some s2 => dfa.runAux s2 (path ++ [c]) rest
    | none =>
      match tlookup dfa.transitions (cur, .Anything) with
      | some s2 => dfa.runAux s2 (path ++ [c]) rest
      | none => none

/-- DFA::run. -/
def DFA.run (dfa : DFA S I) (s : List I) : Option (List I) :=
  dfa.runAux dfa.start [] s

/-- One deterministic step used to characterize DFA::run: exact transition
preferred, Anything as fallback. -/
def DFA.stepOf (dfa : DFA S I) (cur : S) (c : I) : Option S :=
  match tlookup dfa.transitions (cur, .Input c) with
  | some s2 => some s2
  | none => tlookup dfa.transitions (cur, .Anything)

/-- The state reached by consuming the whole input with `stepOf`, if any. -/
def DFA.walk (dfa : DFA S I) : S → List I → Option S
  | cur, [] => some cur
  | cur, c :: rest =>
    match dfa.stepOf cur c with
    | some s2 => dfa.walk s2 rest
    | none => none

/-- NFA::reachable_states (nfa.rs lines 171-181): the union, over the
states of the given set, of the destination sets reachable by one step
with the given label. -/
def NFA.reachable_states (nfa : NFA S I) (states : Finset S) (input : Transition I) :
    Finset S :=
  states.biUnion (fun s => ((nfa.lookupT (s, input)).getD []).toFinset)

/-- All destination states occurring anywhere in the transition table. -/
def NFA.allDest (nfa : NFA S I) : Finset S :=
  nfa.transitions.foldr (fun e acc => e.2.toFinset ∪ acc) ∅

/-- The loop of NFA::epsilon_closure (nfa.rs lines 183-192): repeatedly
union in the epsilon destinations of the current set and stop as soon as
the size no longer grows.  Structured with fuel; the Rust loop always
terminates because the set only grows inside the finite universe of
destination states, and the baked-in fuel of `epsilon_closure` below is
large enough for the growth to have stopped. -/
def NFA.epsilon_closure_aux (nfa : NFA S I) : Nat → Finset S → Finset S
  | 0, cur => cur
  | fuel + 1, cur =>
    let next := cur ∪ nfa.reachable_states cur .Epsilon
    if next.card = cur.card then next else nfa.epsilon_closure_aux fuel next

/-- NFA::epsilon_closure: at most `allDest.card` growing rounds are
possible, so this fuel reaches the fixpoint the Rust loop reaches. -/
def NFA.epsilon_closure (nfa : NFA S I) (s : Finset S) : Finset S :=
  nfa.epsilon_closure_aux (nfa.allDest.card + 1) s

/-- The working alphabet collected at the top of NFA::into_dfa (nfa.rs
lines 103-111): every Input/Anything label present in the transition
table, Epsilon excluded; the list order models the HashSet iteration
order. -/
def NFA.alphabet (nfa : NFA S I) : List (Transition I) :=
  ((nfa.transitions.map (fun e => e.1.2)).filter
    (fun t => match t with | .Epsilon => false | _ => true)).dedup

/-- NFA::get_accept (nfa.rs lines 156-169) returns some common element of
the subset and the accept set (iterating the smaller of the two); only
its presence is consumed by into_dfa, so it is modelled by the decidable
nonemptiness of the intersection. -/
def NFA.get_accept (nfa : NFA S I) (states : Finset S) : Bool :=
  decide (states ∩ nfa.accept_states).Nonempty

/-- The per-(subset, label) reach computation inside the worklist loop of
NFA::into_dfa (nfa.rs lines 126-134), exactly in source order: one step
with label `a`, then epsilon-closure, then - only when `a` is Anything -
one absorption round folding over EVERY alphabet label `b` (Anything
included), each step unioning in the states reachable from the set as
already widened so far. -/
def NFA.reachFor (nfa : NFA S I) (alpha : List (Transition I)) (sub : Finset S)
    (a : Transition I) : Finset S :=
  let r := nfa.epsilon_closure (nfa.reachable_states sub a)
  match a with
  | .Anything => alpha.foldl (fun acc b => acc ∪ nfa.reachable_states acc b) r
  | _ => r

/-- Accumulated state of the subset-construction worklist loop:
the discovered-subsets map (canonical subset to dense id), the accept-id
set, the emitted DFA transitions, the next fresh id, and the FIFO
worklist of (id, subset) pairs still to expand. -/
structure ConvSt (S I : Type) where
  states : List (Finset S × Nat)
  accept_states : Finset Nat
  transitions : List ((Nat × Transition I) × Nat)
  nextId : Nat
  queue : List (Nat × Finset S)
  deriving DecidableEq

/-- Recording one computed reach set for (curId, a) in the loop of
NFA::into_dfa (nfa.rs lines 136-149): nothing is emitted for an empty
reach; a reach whose canonical subset is already known only emits the
transition; a fresh canonical subset takes the next id, is marked
accepting when it shares a state with the NFA accept set, and is
enqueued for expansion. -/
def NFA.recordReach (nfa : NFA S I) (curId : Nat) (a : Transition I)
    (reach : Finset S) (st : ConvSt S I) : ConvSt S I :=
  if 0 < reach.card then
    match tlookup st.states reach with
    | some tid =>
      ⟨st.states, st.accept_states, st.transitions ++ [((curId, a), tid)],
        st.nextId, st.queue⟩
    | none =>
      ⟨st.states ++ [(reach, st.nextId)],
        (if nfa.get_accept reach then insert st.nextId st.accept_states
          else st.accept_states),
        st.transitions ++ [((curId, a), st.nextId)],
        st.nextId + 1,
        st.queue ++ [(st.nextId, reach)]⟩
  else st

/-- Processing one alphabet label for the currently popped (id, subset)
pair of the worklist. -/
def NFA.processLabel (nfa : NFA S I) (alpha : List (Transition I)) (curId : Nat)
    (curSub : Finset S) (st : ConvSt S I) (a : Transition I) : ConvSt S I :=
  nfa.recordReach curId a (nfa.reachFor alpha curSub a) st

/-- Processing one popped worklist pair: iterate over the alphabet in
order (the `for a in alphabet` loop of into_dfa). -/
def NFA.processItem (nfa : NFA S I) (alpha : List (Transition I)) (st : ConvSt S I)
    (curId : Nat) (curSub : Finset S) : ConvSt S I :=
  alpha.foldl (nfa.processLabel alpha curId curSub) st

/-- The `while let Some((cur_id, cur_state)) = queue.pop_front()` worklist
loop of NFA::into_dfa, with fuel; `none` means the fuel ran out. -/
def NFA.convLoop (nfa : NFA S I) (alpha : List (Transition I)) :
    Nat → ConvSt S I → Option (ConvSt S I)
  | 0, _ => none
  | fuel + 1, st =>
    match st.queue with
    | [] => some st
    | (curId, curSub) :: rest =>
      nfa.convLoop alpha fuel
        (nfa.processItem alpha ⟨st.states, st.accept_states, st.transitions,
          st.nextId, rest⟩ curId curSub)

/-- All states appearing in the NFA: the start state, the accept states,
the source states of the transition table and all destination states. -/
def NFA.stateUniverse (nfa : NFA S I) : Finset S :=
  insert nfa.start
    (nfa.accept_states ∪ nfa.transitions.foldr (fun e acc => insert e.1.1 acc) ∅
      ∪ nfa.allDest)

/-- The converter state before the worklist loop (nfa.rs lines 113-123):
the seed subset is the epsilon-closure of {start}, it receives id 0 (and,
notably, no acceptance test), and it is the only enqueued pair. -/
def NFA.convInit (nfa : NFA S I) : ConvSt S I :=
  ⟨[(nfa.epsilon_closure {nfa.start}, 0)], ∅, [], 1,
    [(0, nfa.epsilon_closure {nfa.start})]⟩

/-- NFA::into_dfa, full converter state: the worklist loop run with fuel
2^(number of NFA states) + 1, which theorem c8 proves sufficient. -/
def NFA.intoDfaFull (nfa : NFA S I) : Option (ConvSt S I) :=
  nfa.convLoop nfa.alphabet (2 ^ nfa.stateUniverse.card + 1) nfa.convInit

/-- NFA::into_dfa: the produced DFA has start id 0 and the accumulated
accept ids and transitions (nfa.rs line 153). -/
def NFA.into_dfa (nfa : NFA S I) : Option (DFA Nat I) :=
  nfa.intoDfaFull.map (fun st => ⟨0, st.accept_states, st.transitions⟩)

/-- Modelled from the claim wording for C4 (spec section 4.2): compute
reach as the union of Anything-destinations of the subset, then in a
single extra round union in, for every OTHER alphabet label b (not
Anything itself), the states reachable from the already-computed reach
via b, and only AFTER that apply epsilon-closure. -/
def specReachAnything (nfa : NFA S I) (alpha : List (Transition I))
    (sub : Finset S) : Finset S :=
  let reach := nfa.reachable_states sub .Anything
  let widened := (alpha.filter (fun b => b != Transition.Anything)).foldl
    (fun acc b => acc ∪ nfa.reachable_states reach b) reach
  nfa.epsilon_closure widened

/-- Modelled from the claim wording for C5: on each pull dequeue one
(state, pos) pair, enqueue its epsilon successors at pos and, when pos is
below the input length, BOTH its Anything-destinations and its exact
Input(symbol-at-pos)-destinations at pos+1, then yield the dequeued
state. -/
def specIterNext (nfa : NFA S I) (st : NFAIterSt S I) : Option (S × NFAIterSt S I) :=
  match st.queue with
  | [] => none
  | (state, pos) :: rest =>
    let epsQ := ((nfa.lookupT (state, .Epsilon)).getD []).map (fun i => (i, pos))
    let advQ :=
      if h : pos < st.input.length then
        ((nfa.lookupT (state, .Anything)).getD []).map (fun i => (i, pos + 1))
          ++ ((nfa.lookupT (state, .Input (st.input.get ⟨pos, h⟩))).getD []).map
              (fun i => (i, pos + 1))
      else []
    some (state, ⟨rest ++ epsQ ++ advQ, st.input⟩)

/-- The amended description of NFAIter::next for C5: when pos is below the
input length the exact Input-destinations are enqueued at pos+1 if an
exact entry exists and otherwise the Anything-destinations (never both);
afterwards the epsilon successors are enqueued at pos and the dequeued
state is yielded. -/
def NFA.iterNextAmended (nfa : NFA S I) (st : NFAIterSt S I) :
    Option (S × NFAIterSt S I) :=
  match st.queue with
  | [] => none
  | (state, pos) :: rest =>
    let advDests : List S :=
      if h : pos < st.input.length then
        match nfa.lookupT (state, .Input (st.input.get ⟨pos, h⟩)) with
        | some set => set
        | none => (nfa.lookupT (state, .Anything)).getD []
      else []
    let epsDests := (nfa.lookupT (state, .Epsilon)).getD []
    some (state,
      ⟨rest ++ advDests.map (fun i => (i, pos + 1)) ++ epsDests.map (fun i => (i, pos)),
        st.input⟩)

/-- The amended description of the absorption step for C4, written with
explicit recursion: fold over every alphabet label (Anything included),
each step unioning in the states reachable via that label from the set as
widened so far. -/
def NFA.absorbRound (nfa : NFA S I) : List (Transition I) → Finset S → Finset S
  | [], acc => acc
  | b :: bs, acc => nfa.absorbRound bs (acc ∪ nfa.reachable_states acc b)

/-- The amended per-(subset, Anything) computation for C4: one Anything
step, epsilon-closure, then the absorption round, with no closure
afterwards. -/
def NFA.reachForAmended (nfa : NFA S I) (alpha : List (Transition I))
    (sub : Finset S) : Finset S :=
  nfa.absorbRound alpha (nfa.epsilon_closure (nfa.reachable_states sub .Anything))

/-- The invariant of the converter loop used for termination and the
2^N bound: the discovered canonical subsets are pairwise distinct, every
discovered subset lies inside the NFA state universe, and the next fresh
id equals the number of discovered subsets. -/
def ConvInv (nfa : NFA S I) (st : ConvSt S I) : Prop :=
  (st.states.map Prod.fst).Nodup ∧
    (∀ p ∈ st.states, p.1 ⊆ nfa.stateUniverse) ∧
    st.nextId = st.states.length

/-- The example NFA of the spec and of test_nfa: states {0,1,2}, start 0,
accept {2}, transitions (0,a)->{0,1}, (0,b)->{1}, (1,a)->{0,1},
(1,b)->{2}. -/
def testNFA : NFA Nat Char :=
  ⟨0, {2},
    [((0, .Input 'a'), [0, 1]), ((0, .Input 'b'), [1]),
      ((1, .Input 'a'), [0, 1]), ((1, .Input 'b'), [2])]⟩

/-- An NFA with an epsilon cycle reachable from the start state:
0 -eps-> 1 and 1 -eps-> 0 (claim C9). -/
def epsCycNFA : NFA Nat Char :=
  ⟨0, ∅, [((0, .Epsilon), [1]), ((1, .Epsilon), [0])]⟩

/-- An NFA whose state 0 has both an exact and an Anything transition,
separating NFAIter::next from the claimed both-successors rule (C5). -/
def bothNFA : NFA Nat Char :=
  ⟨0, ∅, [((0, .Input 'a'), [1]), ((0, .Anything), [2])]⟩

/-- An NFA separating the source absorption order from the claimed one
(C4): 0 -Anything-> 1, 1 -eps-> 2, 2 -x-> 3. -/
def wildcardNFA : NFA Nat Char :=
  ⟨0, {3}, [((0, .Anything), [1]), ((1, .Epsilon), [2]), ((2, .Input 'x'), [3])]⟩

/-- An NFA whose start state is accepting, so the seed subset of the
subset construction contains an accept state (C10 witness). -/
def startAccNFA : NFA Nat Char :=
  ⟨0, {0}, [((0, .Input 'a'), [0])]⟩

/-- A small concrete DFA used by witnesses. -/
def dfaEx : DFA Nat Char :=
  ⟨0, {1}, [((0, .Input 'a'), 1)]⟩

theorem tlookup_eq_some_mem [DecidableEq κ] {m : List (κ × α)} {k : κ} {v : α}
    (h : tlookup m k = some v) : (k, v) ∈ m := by
  induction m with
  | nil => simp [tlookup] at h
  | cons e rest ih =>
    obtain ⟨k2, v2⟩ := e
    by_cases hk : k2 = k
    · rw [tlookup, if_pos hk] at h
      injection h with h2
      subst hk
      subst h2
      exact List.mem_cons_self _ _
    · rw [tlookup, if_neg hk] at h
      exact List.mem_cons_of_mem _ (ih h)

theorem tlookup_eq_none_iff [DecidableEq κ] (m : List (κ × α)) (k : κ) :
    tlookup m k = none ↔ k ∉ m.map Prod.fst := by
  induction m with
  | nil => simp [tlookup]
  | cons e rest ih =>
    obtain ⟨k2, v2⟩ := e
    by_cases hk : k2 = k
    · subst hk
      simp [tlookup]
    · simp [tlookup, hk, ih, Ne.symm hk]

theorem dests_subset_foldr (l : List ((S × Transition I) × List S)) :
    ∀ e ∈ l, e.2.toFinset ⊆ l.foldr (fun e acc => e.2.toFinset ∪ acc) ∅ := by
  induction l with
  | nil => simp
  | cons f rest ih =>
    intro e he
    rcases List.mem_cons.mp he with rfl | hmem
    · exact Finset.subset_union_left
    · exact (ih e hmem).trans Finset.subset_union_right

theorem reachable_subset_allDest (nfa : NFA S I) (states : Finset S)
    (t : Transition I) : nfa.reachable_states states t ⊆ nfa.allDest := by
  rw [NFA.reachable_states, Finset.biUnion_subset]
  intro x _
  rcases h : nfa.lookupT (x, t) with _ | l
  · simp
  · simpa using dests_subset_foldr nfa.transitions _ (tlookup_eq_some_mem h)

theorem eps_aux_subset (nfa : NFA S I) :
    ∀ (fuel : Nat) (cur : Finset S),
      nfa.epsilon_closure_aux fuel cur ⊆ cur ∪ nfa.allDest := by
  intro fuel
  induction fuel with
  | zero => intro cur; exact Finset.subset_union_left
  | succ fuel ih =>
    intro cur
    simp only [NFA.epsilon_closure_aux]
    have hnext : cur ∪ nfa.reachable_states cur .Epsilon ⊆ cur ∪ nfa.allDest :=
      Finset.union_subset Finset.subset_union_left
        ((reachable_subset_allDest nfa cur .Epsilon).trans Finset.subset_union_right)
    split
    · exact hnext
    · exact (ih _).trans
        (Finset.union_subset hnext Finset.subset_union_right)

theorem epsilon_closure_subset (nfa : NFA S I) (s : Finset S) :
    nfa.epsilon_closure s ⊆ s ∪ nfa.allDest :=
  eps_aux_subset nfa _ s

theorem foldl_absorb_subset (nfa : NFA S I) :
    ∀ (bs : List (Transition I)) (r : Finset S),
      bs.foldl (fun acc b => acc ∪ nfa.reachable_states acc b) r ⊆ r ∪ nfa.allDest := by
  intro bs
  induction bs with
  | nil => intro r; exact Finset.subset_union_left
  | cons b bs ih =>
    intro r
    refine (ih _).trans (Finset.union_subset ?_ Finset.subset_union_right)
    exact Finset.union_subset Finset.subset_union_left
      ((reachable_subset_allDest nfa r b).trans Finset.subset_union_right)

theorem reachFor_subset_allDest (nfa : NFA S I) (alpha : List (Transition I))
    (sub : Finset S) (a : Transition I) :
    nfa.reachFor alpha sub a ⊆ nfa.allDest := by
  have base : nfa.epsilon_closure (nfa.reachable_states sub a) ⊆ nfa.allDest :=
    (epsilon_closure_subset nfa _).trans
      (Finset.union_subset (reachable_subset_allDest nfa sub a) subset_rfl)
  cases a with
  | Anything =>
    exact (foldl_absorb_subset nfa alpha _).trans (Finset.union_subset base subset_rfl)
  | Epsilon => exact base
  | Input c => exact base

theorem allDest_subset_stateUniverse (nfa : NFA S I) :
    nfa.allDest ⊆ nfa.stateUniverse := by
  rw [NFA.stateUniverse]
  exact Finset.subset_union_right.trans (Finset.subset_insert _ _)

theorem reachFor_subset_stateUniverse (nfa : NFA S I) (alpha : List (Transition I))
    (sub : Finset S) (a : Transition I) :
    nfa.reachFor alpha sub a ⊆ nfa.stateUniverse :=
  (reachFor_subset_allDest nfa alpha sub a).trans (allDest_subset_stateUniverse nfa)

theorem seed_subset_stateUniverse (nfa : NFA S I) :
    nfa.epsilon_closure {nfa.start} ⊆ nfa.stateUniverse := by
  refine (epsilon_closure_subset nfa _).trans (Finset.union_subset ?_ ?_)
  · rw [Finset.singleton_subset_iff, NFA.stateUniverse]
    exact Finset.mem_insert_self _ _
  · exact allDest_subset_stateUniverse nfa

theorem runAux_eq_some_iff (dfa : DFA S I) :
    ∀ (rest : List I) (cur : S) (path p : List I),
      dfa.runAux cur path rest = some p ↔
        (p = path ++ rest ∧
          ∃ q, dfa.walk cur rest = some q ∧ q ∈ dfa.accept_states) := by
  intro rest
  induction rest with
  | nil =>
    intro cur path p
    simp only [DFA.runAux, DFA.walk, List.append_nil]
    split
    · simp_all [eq_comm]
    · simp_all
  | cons c rest ih =>
    intro cur path p
    simp only [DFA.runAux, DFA.walk, DFA.stepOf]
    rcases h1 : tlookup dfa.transitions (cur, .Input c) with _ | s2
    · rcases h2 : tlookup dfa.transitions (cur, .Anything) with _ | s2
      · simp
      · rw [ih]
        simp [List.append_assoc]
    · rw [ih]
      simp [List.append_assoc]

theorem foldl_union_eq_absorbRound (nfa : NFA S I) :
    ∀ (bs : List (Transition I)) (r : Finset S),
      bs.foldl (fun acc b => acc ∪ nfa.reachable_states acc b) r
        = nfa.absorbRound bs r := by
  intro bs
  induction bs with
  | nil => intro r; rfl
  | cons b bs ih => intro r; simp only [List.foldl, NFA.absorbRound, ih]

theorem iterNext_yields_cur (dfa : DFA S I) (st : DFAIterSt S I)
    (h : st.pos ≤ st.input.length) :
    ∃ st2, dfa.iterNext st = some (st.cur, st2)
      ∧ st.pos + 1 ≤ st2.pos ∧ st2.input = st.input := by
  rw [DFA.iterNext, dif_neg (by omega : ¬ st.input.length < st.pos)]
  by_cases h2 : st.pos = st.input.length
  · rw [dif_pos h2]
    exact ⟨_, rfl, Nat.le_refl _, rfl⟩
  · rw [dif_neg h2]
    have hlt : st.pos < st.input.length := by omega
    rcases hInp : tlookup dfa.transitions (st.cur, .Input (st.input.get ⟨st.pos, by omega⟩))
      with _ | s2
    · rcases hAny : tlookup dfa.transitions (st.cur, .Anything) with _ | s2
      · simp only [hInp, hAny]
        exact ⟨_, rfl, (by omega : st.pos + 1 ≤ st.input.length + 1), rfl⟩
      · simp only [hInp, hAny]
        exact ⟨_, rfl, Nat.le_refl _, rfl⟩
    · simp only [hInp]
      exact ⟨_, rfl, Nat.le_refl _, rfl⟩

theorem iterNext_advances (dfa : DFA S I) {st st2 : DFAIterSt S I} {a : S}
    (h : dfa.iterNext st = some (a, st2)) :
    st.pos + 1 ≤ st2.pos ∧ st2.input = st.input := by
  by_cases h1 : st.input.length < st.pos
  · rw [DFA.iterNext, dif_pos h1] at h
    exact absurd h (by simp)
  · obtain ⟨st3, h3, hpos, hin⟩ := iterNext_yields_cur dfa st (by omega)
    rw [h3] at h
    injection h with h4
    have h6 : st3 = st2 := congrArg Prod.snd h4
    subst h6
    exact ⟨hpos, hin⟩

theorem pullN_none_of_pos (dfa : DFA S I) :
    ∀ (n : Nat) (st : DFAIterSt S I), st.input.length + 1 ≤ st.pos + n →
      pullN dfa.iterNext st n = none := by
  intro n
  induction n with
  | zero =>
    intro st h
    have hnone : dfa.iterNext st = none := by
      rw [DFA.iterNext, dif_pos (by omega : st.input.length < st.pos)]
    simp [pullN, hnone]
  | succ n ih =>
    intro st h
    rcases hnext : dfa.iterNext st with _ | p
    · simp [pullN, hnext]
    · obtain ⟨a, st2⟩ := p
      obtain ⟨hpos, hin⟩ := iterNext_advances dfa hnext
      rw [pullN, hnext]
      exact ih st2 (by rw [hin]; omega)

theorem epsCyc_next (input : List Char) (q : Nat) (hq : q = 0 ∨ q = 1) :
    epsCycNFA.iterNext ⟨[(q, 0)], input⟩ = some (q, ⟨[(1 - q, 0)], input⟩) := by
  rcases hq with rfl | rfl <;>
    cases input with
    | nil => decide
    | cons c tl =>
      simp [NFA.iterNext, NFA.lookupT, tlookup, epsCycNFA]

theorem states_length_le (nfa : NFA S I) (st : ConvSt S I) (h : ConvInv nfa st) :
    st.states.length ≤ 2 ^ nfa.stateUniverse.card := by
  obtain ⟨hnd, hsub, -⟩ := h
  have h1 : (st.states.map Prod.fst).toFinset.card = (st.states.map Prod.fst).length :=
    List.toFinset_card_of_nodup hnd
  have h2 : (st.states.map Prod.fst).toFinset ⊆ nfa.stateUniverse.powerset := by
    intro k hk
    rw [List.mem_toFinset] at hk
    rw [Finset.mem_powerset]
    obtain ⟨p, hp, rfl⟩ := List.mem_map.mp hk
    exact hsub p hp
  calc st.states.length
      = (st.states.map Prod.fst).length := (List.length_map _ _).symm
    _ = (st.states.map Prod.fst).toFinset.card := h1.symm
    _ ≤ nfa.stateUniverse.powerset.card := Finset.card_le_card h2
    _ = 2 ^ nfa.stateUniverse.card := Finset.card_powerset _

theorem recordReach_spec (nfa : NFA S I) (curId : Nat) (a : Transition I)
    (reach : Finset S) (st : ConvSt S I) (hInv : ConvInv nfa st)
    (hr : reach ⊆ nfa.stateUniverse) :
    ConvInv nfa (nfa.recordReach curId a reach st) ∧
      (nfa.recordReach curId a reach st).queue.length + st.states.length
        = st.queue.length + (nfa.recordReach curId a reach st).states.length ∧
      st.states.length ≤ (nfa.recordReach curId a reach st).states.length := by
  obtain ⟨hnd, hsub, hid⟩ := hInv
  rw [NFA.recordReach]
  split
  · rcases hl : tlookup st.states reach with _ | tid
    · simp only [hl]
      refine ⟨⟨?_, ?_, ?_⟩, ?_, ?_⟩
      · rw [List.map_append, List.nodup_append]
        refine ⟨hnd, List.nodup_singleton _, ?_⟩
        intro k hk hk2
        simp only [List.map_cons, List.map_nil, List.mem_singleton] at hk2
        exact (tlookup_eq_none_iff st.states reach).mp hl (hk2 ▸ hk)
      · intro p hp
        rcases List.mem_append.mp hp with hmem | hmem
        · exact hsub p hmem
        · rw [List.mem_singleton.mp hmem]
          exact hr
      · simp [hid, List.length_append]
      · simp [List.length_append]
        omega
      · simp [List.length_append]
    · simp only [hl]
      exact ⟨⟨hnd, hsub, hid⟩, by simp, by simp⟩
  · exact ⟨⟨hnd, hsub, hid⟩, rfl, Nat.le_refl _⟩

theorem processItem_spec (nfa : NFA S I) (alpha : List (Transition I))
    (curId : Nat) (curSub : Finset S) :
    ∀ (labels : List (Transition I)) (st : ConvSt S I), ConvInv nfa st →
      ConvInv nfa (labels.foldl (nfa.processLabel alpha curId curSub) st) ∧
        (labels.foldl (nfa.processLabel alpha curId curSub) st).queue.length
            + st.states.length
          = st.queue.length
            + (labels.foldl (nfa.processLabel alpha curId curSub) st).states.length ∧
        st.states.length
          ≤ (labels.foldl (nfa.processLabel alpha curId curSub) st).states.length := by
  intro labels
  induction labels with
  | nil => intro st h; exact ⟨h, rfl, Nat.le_refl _⟩
  | cons b bs ih =>
    intro st h
    obtain ⟨hInv1, heq1, hle1⟩ := recordReach_spec nfa curId b
      (nfa.reachFor alpha curSub b) st h (reachFor_subset_stateUniverse nfa alpha curSub b)
    obtain ⟨hInv2, heq2, hle2⟩ := ih (nfa.processLabel alpha curId curSub st b)
      (by rw [NFA.processLabel]; exact hInv1)
    rw [NFA.processLabel] at heq2 hle2
    refine ⟨hInv2, ?_, ?_⟩
    · simp only [List.foldl]
      rw [NFA.processLabel]
      omega
    · simp only [List.foldl]
      rw [NFA.processLabel]
      omega

theorem convLoop_total (nfa : NFA S I) (alpha : List (Transition I)) :
    ∀ (fuel : Nat) (st : ConvSt S I), ConvInv nfa st →
      st.queue.length + (2 ^ nfa.stateUniverse.card - st.states.length) < fuel →
      ∃ st2, nfa.convLoop alpha fuel st = some st2 ∧ ConvInv nfa st2 := by
  intro fuel
  induction fuel with
  | zero => intro st _ h; exact absurd h (Nat.not_lt_zero _)
  | succ fuel ih =>
    intro st hInv hM
    rcases hq : st.queue with _ | ⟨⟨curId, curSub⟩, rest⟩
    · refine ⟨st, ?_, hInv⟩
      rw [NFA.convLoop, hq]
    · have hInv0 : ConvInv nfa
          ⟨st.states, st.accept_states, st.transitions, st.nextId, rest⟩ := hInv
      obtain ⟨hInv1, heq, hle⟩ := processItem_spec nfa alpha curId curSub alpha
        ⟨st.states, st.accept_states, st.transitions, st.nextId, rest⟩ hInv0
      have hb1 := states_length_le nfa _ hInv1
      have hb0 := states_length_le nfa _ hInv
      have hql : st.queue.length = rest.length + 1 := by rw [hq]; rfl
      obtain ⟨st2, hrun, hInv2⟩ := ih _ hInv1 (by
        simp only [NFA.processItem] at *
        omega)
      refine ⟨st2, ?_, hInv2⟩
      rw [NFA.convLoop, hq]
      exact hrun

/-- The invariant giving C10: id 0 was consumed by the seed subset before
the loop, so every id inserted into the accept set is at least 1. -/
def AccInv (st : ConvSt S I) : Prop :=
  1 ≤ st.nextId ∧ 0 ∉ st.accept_states

theorem recordReach_acc (nfa : NFA S I) (curId : Nat) (a : Transition I)
    (reach : Finset S) (st : ConvSt S I) (h : AccInv st) :
    AccInv (nfa.recordReach curId a reach st) := by
  obtain ⟨h1, h2⟩ := h
  rw [NFA.recordReach]
  split
  · rcases hl : tlookup st.states reach with _ | tid
    · simp only [hl]
      constructor
      · show 1 ≤ st.nextId + 1
        omega
      · show 0 ∉ (if nfa.get_accept reach then insert st.nextId st.accept_states
          else st.accept_states)
        split
        · rw [Finset.mem_insert]
          push_neg
          exact ⟨by omega, h2⟩
        · exact h2
    · simp only [hl]
      exact ⟨h1, h2⟩
  · exact ⟨h1, h2⟩

theorem processItem_acc (nfa : NFA S I) (alpha : List (Transition I))
    (curId : Nat) (curSub : Finset S) :
    ∀ (labels : List (Transition I)) (st : ConvSt S I), AccInv st →
      AccInv (labels.foldl (nfa.processLabel alpha curId curSub) st) := by
  intro labels
  induction labels with
  | nil => intro st h; exact h
  | cons b bs ih =>
    intro st h
    exact ih _ (recordReach_acc nfa curId b (nfa.reachFor alpha curSub b) st h)

theorem convLoop_acc (nfa : NFA S I) (alpha : List (Transition I)) :
    ∀ (fuel : Nat) (st st2 : ConvSt S I),
      nfa.convLoop alpha fuel st = some st2 → AccInv st → AccInv st2 := by
  intro fuel
  induction fuel with
  | zero => intro st st2 h; rw [NFA.convLoop] at h; exact absurd h (by simp)
  | succ fuel ih =>
    intro st st2 h hAcc
    rcases hq : st.queue with _ | ⟨⟨curId, curSub⟩, rest⟩
    · rw [NFA.convLoop, hq] at h
      injection h with h2
      subst h2
      exact hAcc
    · rw [NFA.convLoop, hq] at h
      exact ih _ _ h (processItem_acc nfa alpha curId curSub alpha _ hAcc)

theorem epsCyc_pull_isSome :
    ∀ (n : Nat) (input : List Char) (q : Nat), q = 0 ∨ q = 1 →
      (pullN epsCycNFA.iterNext ⟨[(q, 0)], input⟩ n).isSome = true := by
  intro n
  induction n with
  | zero =>
    intro input q hq
    rw [pullN, epsCyc_next input q hq]
    rfl
  | succ n ih =>
    intro input q hq
    rw [pullN, epsCyc_next input q hq]
    exact ih input (1 - q) (by omega)

/-- Claim C1 (code_bug evaluation): on the spec's example NFA, run on
"aababb" does not return Some(prefix) as the claim and the repository's
own test_nfa expect; the BFS dequeues a pair with pos = 6 = input length
and the `path.push(s[pos])` executed before the acceptance test indexes
the input out of bounds, so the call panics. -/
theorem c1_run_crashes_on_accepting_input :
    testNFA.run ['a', 'a', 'b', 'a', 'b', 'b'] 100 = some RunOutcome.crash := by
  decide

/-- Claim C2 (code_bug evaluation): NFA::run is not total - on the empty
input the very first dequeued pair (start, 0) already has pos = length,
and `path.push(s[pos])` indexes the empty input vector out of bounds, so
the call panics instead of returning Some or None. -/
theorem c2_run_crashes_on_empty_input :
    testNFA.run ([] : List Char) 1 = some RunOutcome.crash := by
  decide

/-- Claim C3 (code_bug evaluation): acceptance equivalence between an
Input-only NFA and its subset-construction DFA fails on the example NFA
with input "aababb": the converted DFA's run returns Some while the NFA's
run panics (it can never return Some, because every accepting
configuration triggers the out-of-bounds `path.push(s[pos])` first). -/
theorem c3_conversion_equivalence_fails :
    testNFA.into_dfa.map (fun d => d.run ['a', 'a', 'b', 'a', 'b', 'b'])
        = some (some ['a', 'a', 'b', 'a', 'b', 'b'])
      ∧ testNFA.run ['a', 'a', 'b', 'a', 'b', 'b'] 100 = some RunOutcome.crash :=
  ⟨by decide, by decide⟩

/-- Counterexample to claim C4 as stated: on the wildcard NFA the
converter's per-(subset, Anything) computation (epsilon-closure BEFORE a
cumulative absorption fold over every alphabet label) differs from the
claimed order (single absorption round over the other labels from the
base reach, epsilon-closure only afterwards) already at the seed subset:
the code produces {1, 2, 3}, the claimed rule produces {1, 2}. -/
theorem c4_counterexample :
    NFA.reachFor wildcardNFA wildcardNFA.alphabet
        (wildcardNFA.epsilon_closure {0}) Transition.Anything
      ≠ specReachAnything wildcardNFA wildcardNFA.alphabet
        (wildcardNFA.epsilon_closure {0}) := by
  decide

/-- Claim C4, amended: for every processed (subset, Anything) pair the
converter computes reach as the union of the Anything-destinations of the
subset, applies epsilon-closure to it, and only THEN performs the
absorption round, folding over every alphabet label b - Anything itself
included - and at each step unioning in the states reachable via b from
the reach as already widened so far; no epsilon-closure is applied after
the absorption. -/
theorem c4_absorption_order (nfa : NFA S I) (alpha : List (Transition I))
    (sub : Finset S) :
    nfa.reachFor alpha sub .Anything = nfa.reachForAmended alpha sub := by
  rw [NFA.reachFor, NFA.reachForAmended, foldl_union_eq_absorbRound]

/-- Counterexample to claim C5 as stated: on an NFA whose state 0 has both
an exact Input('a') entry and an Anything entry, one pull of the lazy
iterator enqueues only the exact-symbol destination (the code uses
`else if`, taking Anything purely as a fallback), while the claimed
both-successors rule additionally enqueues the Anything destination. -/
theorem c5_counterexample :
    bothNFA.iterNext (bothNFA.iterInit ['a'])
      ≠ specIterNext bothNFA (bothNFA.iterInit ['a']) := by
  decide

/-- Claim C5, amended: on each pull the NFA lazy-traversal iterator
dequeues one (state, position) pair and, when position < input length,
enqueues at position+1 the exact Input(symbol-at-position)-destinations
if an exact entry exists and OTHERWISE the Anything-destinations (never
both - unlike NFA::run, which enqueues the Anything-destinations
unconditionally); it then enqueues the epsilon successors at the same
position and yields the dequeued state. -/
theorem c5_iter_next_fallback_rule (nfa : NFA S I) (st : NFAIterSt S I) :
    nfa.iterNext st = nfa.iterNextAmended st := by
  obtain ⟨queue, input⟩ := st
  cases queue with
  | nil => rfl
  | cons hd rest =>
    obtain ⟨state, pos⟩ := hd
    simp only [NFA.iterNext, NFA.iterNextAmended]
    by_cases h : pos < input.length
    · simp only [dif_pos h]
      rcases h1 : nfa.lookupT (state, .Input (input.get ⟨pos, h⟩)) with _ | set1
      · rcases h2 : nfa.lookupT (state, .Anything) with _ | set2
        · simp only [h1, h2]
          rcases h3 : nfa.lookupT (state, .Epsilon) with _ | set3 <;>
            simp [h3]
        · simp only [h1, h2]
          rcases h3 : nfa.lookupT (state, .Epsilon) with _ | set3 <;>
            simp [h3, List.append_assoc]
      · simp only [h1]
        rcases h3 : nfa.lookupT (state, .Epsilon) with _ | set3 <;>
          simp [h3, List.append_assoc]
    · simp only [dif_neg h]
      rcases h3 : nfa.lookupT (state, .Epsilon) with _ | set3 <;>
        simp [h3]

/-- Claim C6: for every DFA and every finite input of length n the lazy
traversal is total - the first pull always yields the start state, and
every pull from number n+1 on returns None (so at most n+1 states are
yielded, at least one state is yielded, and the iterator terminates and
then returns None forever). -/
theorem c6_dfa_iter_total (dfa : DFA S I) (input : List I) :
    pullN dfa.iterNext (dfa.iterInit input) 0 = some dfa.start ∧
      ∀ n, input.length + 1 ≤ n →
        pullN dfa.iterNext (dfa.iterInit input) n = none := by
  constructor
  · obtain ⟨st2, h, -, -⟩ :=
      iterNext_yields_cur dfa (dfa.iterInit input) (Nat.zero_le _)
    rw [pullN, h]
    rfl
  · intro n hn
    exact pullN_none_of_pos dfa n _
      (by show input.length + 1 ≤ 0 + n; omega)

/-- Witness for C6 at a concrete DFA and input of length 1: the first pull
yields the start state and the third pull returns None. -/
theorem c6_witness :
    pullN dfaEx.iterNext (dfaEx.iterInit ['a']) 0 = some dfaEx.start ∧
      pullN dfaEx.iterNext (dfaEx.iterInit ['a']) 2 = none :=
  ⟨(c6_dfa_iter_total dfaEx ['a']).1,
    (c6_dfa_iter_total dfaEx ['a']).2 2 (by decide)⟩

/-- Claim C7: DFA::run returns Some p exactly when p is the ENTIRE input,
the walk that prefers exact transitions and falls back to Anything
consumes every symbol, and the final state is accepting; in particular
Some p implies p = s, and a symbol with no applicable transition makes
the run return None. -/
theorem c7_dfa_run_consumes_whole_input (dfa : DFA S I) (s p : List I) :
    dfa.run s = some p ↔
      (p = s ∧ ∃ q, dfa.walk dfa.start s = some q ∧ q ∈ dfa.accept_states) := by
  have h := runAux_eq_some_iff dfa s dfa.start [] p
  simpa [DFA.run] using h

/-- Claim C8: for every NFA, into_dfa terminates (the worklist loop
finishes within the baked-in fuel) and the number of DFA state ids it
hands out (nextId, one per discovered canonical subset) never exceeds
2^(number of NFA states), because distinct ids belong to distinct subsets
of the NFA state universe. -/
theorem c8_into_dfa_terminates_pow_bound (nfa : NFA S I) :
    ∃ (d : DFA Nat I) (st : ConvSt S I),
      nfa.into_dfa = some d ∧ nfa.intoDfaFull = some st ∧
        st.nextId ≤ 2 ^ nfa.stateUniverse.card := by
  have hInvInit : ConvInv nfa nfa.convInit := by
    refine ⟨?_, ?_, rfl⟩
    · simp [NFA.convInit]
    · intro p hp
      simp only [NFA.convInit, List.mem_singleton] at hp
      rw [hp]
      exact seed_subset_stateUniverse nfa
  have hpos : 0 < 2 ^ nfa.stateUniverse.card := pow_pos (by norm_num) _
  obtain ⟨st2, hrun, hInv2⟩ := convLoop_total nfa nfa.alphabet
    (2 ^ nfa.stateUniverse.card + 1) nfa.convInit hInvInit
    (by show (1 : Nat) + (2 ^ nfa.stateUniverse.card - 1)
          < 2 ^ nfa.stateUniverse.card + 1
        omega)
  have hfull : nfa.intoDfaFull = some st2 := hrun
  have hlen := states_length_le nfa st2 hInv2
  obtain ⟨-, -, hid⟩ := hInv2
  exact ⟨⟨0, st2.accept_states, st2.transitions⟩, st2,
    by rw [NFA.into_dfa, hfull]; rfl, hfull, by omega⟩

/-- Claim C9: on the NFA with the epsilon cycle 0 -eps-> 1 -eps-> 0
reachable from the start state, the lazy traversal never terminates:
for every finite input and every n, the n-th pull still yields a value
(the worklist never empties, since each step re-enqueues the other cycle
state and no visited tracking exists). -/
theorem c9_eps_cycle_never_ends (input : List Char) (n : Nat) :
    (pullN epsCycNFA.iterNext (epsCycNFA.iterInit input) n).isSome = true :=
  epsCyc_pull_isSome n input 0 (Or.inl rfl)

/-- Claim C10: for every NFA, the DFA produced by into_dfa never has its
start state (id 0) in the accept set: the converter tests acceptance only
for subsets discovered while expanding the worklist (which receive ids
from 1 on) and never tests the seed subset, even when the seed contains
an NFA accept state. -/
theorem c10_seed_never_accepting (nfa : NFA S I) (d : DFA Nat I)
    (h : nfa.into_dfa = some d) : d.start ∉ d.accept_states := by
  rw [NFA.into_dfa] at h
  rcases hfull : nfa.intoDfaFull with _ | st
  · rw [hfull] at h
    exact absurd h (by simp)
  · rw [hfull] at h
    simp only [Option.map_some'] at h
    injection h with h2
    subst h2
    have hAcc := convLoop_acc nfa nfa.alphabet (2 ^ nfa.stateUniverse.card + 1)
      nfa.convInit st hfull ⟨Nat.le_refl 1, by simp [NFA.convInit]⟩
    exact hAcc.2

/-- Witness for C4's amended claim at the wildcard NFA and its seed
subset. -/
theorem c4_witness :
    NFA.reachFor wildcardNFA wildcardNFA.alphabet ({0} : Finset Nat)
        Transition.Anything
      = NFA.reachForAmended wildcardNFA wildcardNFA.alphabet ({0} : Finset Nat) :=
  c4_absorption_order wildcardNFA wildcardNFA.alphabet {0}

/-- Witness for C5's amended claim at the both-transitions NFA. -/
theorem c5_witness :
    bothNFA.iterNext (bothNFA.iterInit ['a'])
      = bothNFA.iterNextAmended (bothNFA.iterInit ['a']) :=
  c5_iter_next_fallback_rule bothNFA (bothNFA.iterInit ['a'])

/-- Witness for C7 at a concrete DFA and input. -/
theorem c7_witness :
    dfaEx.run ['a'] = some ['a'] ↔
      (['a'] = ['a'] ∧ ∃ q, dfaEx.walk dfaEx.start ['a'] = some q
        ∧ q ∈ dfaEx.accept_states) :=
  c7_dfa_run_consumes_whole_input dfaEx ['a'] ['a']

/-- Witness for C8 at the example NFA. -/
theorem c8_witness :
    ∃ (d : DFA Nat Char) (st : ConvSt Nat Char),
      testNFA.into_dfa = some d ∧ testNFA.intoDfaFull = some st ∧
        st.nextId ≤ 2 ^ testNFA.stateUniverse.card :=
  c8_into_dfa_terminates_pow_bound testNFA

/-- Witness for C9 at a concrete input and pull count. -/
theorem c9_witness :
    (pullN epsCycNFA.iterNext (epsCycNFA.iterInit ['a']) 5).isSome = true :=
  c9_eps_cycle_never_ends ['a'] 5

/-- Witness for C10 on an NFA whose start state is accepting (so the seed
subset contains an accept state): the produced DFA still does not accept
at its start id 0. -/
theorem c10_witness :
    (DFA.mk 0 (∅ : Finset Nat) [((0, Transition.Input 'a'), 0)] : DFA Nat Char).start
      ∉ (DFA.mk 0 (∅ : Finset Nat)
          [((0, Transition.Input 'a'), 0)] : DFA Nat Char).accept_states :=
  c10_seed_never_accepting startAccNFA
    (DFA.mk 0 ∅ [((0, Transition.Input 'a'), 0)]) (by decide)

end RustAutomata
